import Mathlib

/-!
Verification of the `meta` command of `log-cache-cli` (`pkg/command/k8s/meta.go`).

The development shallowly embeds the pure core of the command:
`sourceParts` (source-key parsing via `strings.SplitN(key, "/", 3)`),
`cacheDuration` (retention-window computation via `time.Sub` / `Truncate`),
`maxDuration` (display-time duration floor), `rows` (row construction and
`sort.Slice` ordering), and the control flow of `runE` (error handling and
rendering). Machine `int64` values are modelled as `Int` with explicit
saturation where Go's `time` package saturates; Go strings are Lean `String`s
(Go compares strings bytewise over UTF-8, which agrees with the
codepoint-lexicographic order of `String`).
-/

namespace LogCacheMeta

/-! ### Go `strings.SplitN` with separator `"/"` and limit -/

/-- Splits a character list at the first occurrence of `c`: returns the part
before and the part after, or `none` when `c` does not occur. -/
def splitOnFirst (c : Char) : List Char → Option (List Char × List Char)
  | [] => none
  | x :: xs =>
    if x = c then some ([], xs)
    else
      match splitOnFirst c xs with
      | none => none
      | some (l, r) => some (x :: l, r)

/-- Go's `strings.SplitN(s, c, n)` for a single-character separator `c` and
`n ≥ 1`: at most `n` substrings, the last one the unsplit remainder. -/
def goSplitN (c : Char) : List Char → Nat → List (List Char)
  | _, 0 => []
  | cs, 1 => [cs]
  | cs, Nat.succ (Nat.succ k) =>
    match splitOnFirst c cs with
    | none => [cs]
    | some (l, r) => l :: goSplitN c r (Nat.succ k)

/-- `sourceParts` from `meta.go`: `strings.SplitN(sourceID, "/", 3)`; when the
split yields exactly 3 parts returns `(parts[2], parts[1], parts[0])`,
otherwise `(sourceID, "-", "-")`. -/
def sourceParts (sourceID : String) : String × String × String :=
  match (goSplitN '/' sourceID.data 3).map String.mk with
  | [a, b, c] => (c, b, a)
  | _ => (sourceID, "-", "-")

example : sourceParts "ns1/gauge/cpu" = ("cpu", "gauge", "ns1") := by decide
example : sourceParts "malformed-key" = ("malformed-key", "-", "-") := by decide
example : sourceParts "a/b" = ("a/b", "-", "-") := by decide
example : sourceParts "a/b/c/d" = ("c/d", "b", "a") := by decide
example : sourceParts "" = ("", "-", "-") := by decide
example : sourceParts "/" = ("/", "-", "-") := by decide
example : sourceParts "//" = ("", "", "") := by decide

/-! ### Data model -/

/-- `logcache_v1.MetaInfo`: the fields `meta.go` reads (`int64` as `Int`). -/
structure MetaInfo where
  Count : Int
  Expired : Int
  OldestTimestamp : Int
  NewestTimestamp : Int
deriving DecidableEq

/-- `row` from `meta.go`. `Duration` is a `time.Duration`, i.e. a nanosecond
count. -/
structure Row where
  Count : Int
  Expired : Int
  Duration : Int
  ResourceName : String
  ResourceType : String
  Namespace : String
deriving DecidableEq

/-- `time.Second` in nanoseconds. -/
def second : Int := 1000000000

def maxInt64 : Int := 9223372036854775807

def minInt64 : Int := -9223372036854775808

/-- `time.Time.Sub` on the instants `time.Unix(0, t)` and `time.Unix(0, u)`:
the exact difference `t - u`, saturated to the `int64` range of
`time.Duration` (documented behaviour of `Sub` on overflow). -/
def timeSub (t u : Int) : Int :=
  if maxInt64 < t - u then maxInt64
  else if t - u < minInt64 then minInt64
  else t - u

/-- Go `Duration.Truncate(time.Second)`: `d - d % Second` with Go's
truncated (toward-zero) remainder. -/
def truncateSecond (d : Int) : Int := d - Int.tmod d second

/-- `cacheDuration` from `meta.go`:
`time.Unix(0, m.NewestTimestamp).Sub(time.Unix(0, m.OldestTimestamp)).Truncate(time.Second)`. -/
def cacheDuration (m : MetaInfo) : Int :=
  truncateSecond (timeSub m.NewestTimestamp m.OldestTimestamp)

/-- `maxDuration` from `meta.go`. -/
def maxDuration (a b : Int) : Int := if a < b then b else a

/-- Go string comparison `s < t`: lexicographic over the bytes of the UTF-8
encoding, which coincides with lexicographic comparison of the codepoint
sequences. -/
def strLt : List Char → List Char → Bool
  | _, [] => false
  | [], _ :: _ => true
  | a :: as, b :: bs =>
    if a.toNat < b.toNat then true
    else if b.toNat < a.toNat then false
    else strLt as bs

/-- Go `<` on strings. -/
def goLt (a b : String) : Bool := strLt a.data b.data

/-- The row built from one map entry (loop body of `rows`). -/
def toRow (kv : String × MetaInfo) : Row :=
  let p := sourceParts kv.1
  { Count := kv.2.Count
    Expired := kv.2.Expired
    Duration := cacheDuration kv.2
    ResourceName := p.1
    ResourceType := p.2.1
    Namespace := p.2.2 }

/-- The `less` closure passed to `sort.Slice` in `rows`. -/
def rowLess (a b : Row) : Bool :=
  if goLt a.Namespace b.Namespace then true
  else if goLt b.Namespace a.Namespace then false
  else if goLt a.ResourceName b.ResourceName then true
  else if goLt b.ResourceName a.ResourceName then false
  else goLt a.ResourceType b.ResourceType

/-- The non-strict order in which `sort.Slice` leaves the slice: consecutive
elements `a, b` satisfy `!less(b, a)`. -/
def rowLE (a b : Row) : Prop := rowLess b a = false

instance : DecidableRel rowLE := fun a b =>
  inferInstanceAs (Decidable (rowLess b a = false))

/-- `rows` from `meta.go`. The Go map is modelled by its iteration sequence,
an association list; the loop maps every entry to a `row`, then `sort.Slice`
sorts by the `rowLess` comparator (for two tied elements Go's slice sort, like
any comparison sort, keeps some input-dependent order; insertion sort realises
it). -/
def rows (meta : List (String × MetaInfo)) : List Row :=
  List.insertionSort rowLE (meta.map toRow)

/-! ### `runE` control flow -/

/-- Errors `runE` can see or return. `io.EOF` is a distinguished value. -/
inductive GoError
  | eof
  | other (msg : String)
deriving DecidableEq

/-- One line written to the tabwriter (alignment is layout only and is not
modelled; fields appear in the order of `headerArgs` / `rowFormat`). -/
inductive OutLine
  | header
  | rowLine (resourceName resourceType nspace : String)
      (count expired : Int) (duration : Int)
deriving DecidableEq

/-- The lines `runE` writes: the header unless `noHeaders`, then one line per
row whose duration field is `maxDuration(time.Second, r.Duration)`. -/
def renderLines (noHeaders : Bool) (rs : List Row) : List OutLine :=
  (if noHeaders then [] else [OutLine.header]) ++
    rs.map fun r =>
      OutLine.rowLine r.ResourceName r.ResourceType r.Namespace
        r.Count r.Expired (maxDuration second r.Duration)

/-- `runE` from `meta.go`. `metaResult` is the outcome of `client.Meta(ctx)`;
`flushError` is the outcome of `tw.Flush()` (`some cause` when the underlying
write fails). Returns the lines that reach the output stream on success. -/
def runE (noHeaders : Bool) (flushError : Option String)
    (metaResult : Except GoError (List (String × MetaInfo))) :
    Except GoError (List OutLine) :=
  match metaResult with
  | .error e => if e = .eof then .ok [] else .error e
  | .ok meta =>
    if meta.length = 0 then .ok []
    else
      match flushError with
      | some _ => .error (.other "Error writing results")
      | none => .ok (renderLines noHeaders (rows meta))

/-! ### Order theory of `strLt` -/

theorem strLt_asymm : ∀ x y : List Char, strLt x y = true → strLt y x = false := by
  intro x
  induction x with
  | nil => intro y h; cases y <;> simp [strLt] at h ⊢
  | cons a as ih =>
    intro y h
    cases y with
    | nil => simp [strLt] at h
    | cons b bs =>
      simp only [strLt] at h ⊢
      by_cases h1 : a.toNat < b.toNat
      · have h2 : ¬ b.toNat < a.toNat := by omega
        simp [h1, h2]
      · by_cases h2 : b.toNat < a.toNat
        · simp [h1, h2] at h
        · simp only [h1, h2, if_false] at h ⊢
          exact ih bs h

theorem strLt_trans : ∀ x y z : List Char,
    strLt x y = true → strLt y z = true → strLt x z = true := by
  intro x
  induction x with
  | nil =>
    intro y z hxy hyz
    cases z with
    | nil => cases y <;> simp [strLt] at hxy hyz
    | cons c cs => simp [strLt]
  | cons a as ih =>
    intro y z hxy hyz
    cases y with
    | nil => simp [strLt] at hxy
    | cons b bs =>
      cases z with
      | nil => simp [strLt] at hyz
      | cons c cs =>
        simp only [strLt] at hxy hyz ⊢
        by_cases h1 : a.toNat < b.toNat <;> by_cases h2 : b.toNat < c.toNat
        · have : a.toNat < c.toNat := by omega
          simp [this]
        · simp only [h2, if_false] at hyz
          by_cases h3 : c.toNat < b.toNat
          · simp [h3] at hyz
          · have hac : a.toNat < c.toNat := by omega
            simp [hac]
        · simp only [h1, if_false] at hxy
          by_cases h3 : b.toNat < a.toNat
          · simp [h3] at hxy
          · have hac : a.toNat < c.toNat := by omega
            simp [hac]
        · simp only [h1, h2, if_false] at hxy hyz
          by_cases h3 : b.toNat < a.toNat
          · simp [h3] at hxy
          · by_cases h4 : c.toNat < b.toNat
            · simp [h4] at hyz
            · simp only [h3, if_false] at hxy
              simp only [h4, if_false] at hyz
              have hca : ¬ c.toNat < a.toNat := by omega
              have hac : ¬ a.toNat < c.toNat := by omega
              simp only [hac, hca, if_false]
              exact ih bs cs hxy hyz

theorem strLt_conn : ∀ x y : List Char,
    strLt x y = false → strLt y x = false → x = y := by
  intro x
  induction x with
  | nil =>
    intro y h1 _
    cases y with
    | nil => rfl
    | cons b bs => simp [strLt] at h1
  | cons a as ih =>
    intro y h1 h2
    cases y with
    | nil => simp [strLt] at h2
    | cons b bs =>
      simp only [strLt] at h1 h2
      by_cases hab : a.toNat < b.toNat
      · simp [hab] at h1
      · by_cases hba : b.toNat < a.toNat
        · simp [hab, hba] at h2
        · simp only [hab, hba, if_false] at h1 h2
          have heq : a = b := by
            have : a.toNat = b.toNat := by omega
            exact Char.eq_of_val_eq (UInt32.ext this)
          rw [heq, ih bs h1 h2]

theorem strLt_irrefl (x : List Char) : strLt x x = false := by
  by_cases h : strLt x x = true
  · exact strLt_asymm x x h
  · simpa using h

theorem string_eq_of_data_eq : ∀ a b : String, a.data = b.data → a = b := by
  intro a b h
  cases a; cases b; exact congrArg String.mk h

theorem goLt_asymm {a b : String} (h : goLt a b = true) : goLt b a = false :=
  strLt_asymm a.data b.data h

theorem goLt_trans {a b c : String} (h1 : goLt a b = true) (h2 : goLt b c = true) :
    goLt a c = true :=
  strLt_trans a.data b.data c.data h1 h2

theorem goLt_conn {a b : String} (h1 : goLt a b = false) (h2 : goLt b a = false) :
    a = b :=
  string_eq_of_data_eq a b (strLt_conn a.data b.data h1 h2)

theorem goLt_irrefl (a : String) : goLt a a = false :=
  strLt_irrefl a.data

/-! ### The lexicographic sort key -/

/-- The sort key of a row: `(namespace, resourceName, resourceType)`. -/
def sortKey (r : Row) : String × String × String :=
  (r.Namespace, r.ResourceName, r.ResourceType)

/-- Non-strict lexicographic comparison of rows on
`(namespace, resourceName, resourceType)`, each later field breaking ties of
the earlier ones, with Go's string order at every level. -/
def keyLE (a b : Row) : Prop :=
  goLt a.Namespace b.Namespace = true ∨
    (a.Namespace = b.Namespace ∧
      (goLt a.ResourceName b.ResourceName = true ∨
        (a.ResourceName = b.ResourceName ∧
          goLt b.ResourceType a.ResourceType = false)))

theorem rowLE_iff_keyLE (a b : Row) : rowLE a b ↔ keyLE a b := by
  unfold rowLE rowLess keyLE
  constructor
  · intro h
    by_cases h1 : goLt a.Namespace b.Namespace = true
    · exact Or.inl h1
    · have h1' : goLt a.Namespace b.Namespace = false := by simpa using h1
      by_cases h2 : goLt b.Namespace a.Namespace = true
      · simp [h2] at h
      · have h2' : goLt b.Namespace a.Namespace = false := by simpa using h2
        refine Or.inr ⟨goLt_conn h1' h2', ?_⟩
        simp only [h1', h2', if_false, Bool.false_eq_true, if_neg] at h
        by_cases h3 : goLt a.ResourceName b.ResourceName = true
        · exact Or.inl h3
        · have h3' : goLt a.ResourceName b.ResourceName = false := by simpa using h3
          by_cases h4 : goLt b.ResourceName a.ResourceName = true
          · simp [h2', h4] at h
          · have h4' : goLt b.ResourceName a.ResourceName = false := by simpa using h4
            refine Or.inr ⟨goLt_conn h3' h4', ?_⟩
            simpa [h2', h3', h4'] using h
  · intro h
    rcases h with h1 | ⟨hns, h⟩
    · simp [goLt_asymm h1, h1]
    · rw [hns]
      simp only [goLt_irrefl, Bool.false_eq_true, if_false, if_neg]
      rcases h with h2 | ⟨hrn, h3⟩
      · simp [goLt_asymm h2, h2]
      · rw [hrn]
        simp [goLt_irrefl, h3]

theorem keyLE_total (a b : Row) : keyLE a b ∨ keyLE b a := by
  unfold keyLE
  by_cases h1 : goLt a.Namespace b.Namespace = true
  · exact Or.inl (Or.inl h1)
  · have h1' : goLt a.Namespace b.Namespace = false := by simpa using h1
    by_cases h2 : goLt b.Namespace a.Namespace = true
    · exact Or.inr (Or.inl h2)
    · have h2' : goLt b.Namespace a.Namespace = false := by simpa using h2
      have hns := goLt_conn h1' h2'
      by_cases h3 : goLt a.ResourceName b.ResourceName = true
      · exact Or.inl (Or.inr ⟨hns, Or.inl h3⟩)
      · have h3' : goLt a.ResourceName b.ResourceName = false := by simpa using h3
        by_cases h4 : goLt b.ResourceName a.ResourceName = true
        · exact Or.inr (Or.inr ⟨hns.symm, Or.inl h4⟩)
        · have h4' : goLt b.ResourceName a.ResourceName = false := by simpa using h4
          have hrn := goLt_conn h3' h4'
          by_cases h5 : goLt b.ResourceType a.ResourceType = true
          · exact Or.inr (Or.inr ⟨hns.symm, Or.inr ⟨hrn.symm, goLt_asymm h5⟩⟩)
          · have h5' : goLt b.ResourceType a.ResourceType = false := by simpa using h5
            exact Or.inl (Or.inr ⟨hns, Or.inr ⟨hrn, h5'⟩⟩)

theorem keyLE_trans {a b c : Row} (h1 : keyLE a b) (h2 : keyLE b c) : keyLE a c := by
  unfold keyLE at h1 h2 ⊢
  rcases h1 with h1 | ⟨hns1, h1⟩
  · rcases h2 with h2 | ⟨hns2, _⟩
    · exact Or.inl (goLt_trans h1 h2)
    · exact Or.inl (hns2 ▸ h1)
  · rcases h2 with h2 | ⟨hns2, h2⟩
    · exact Or.inl (hns1 ▸ h2)
    · refine Or.inr ⟨hns1.trans hns2, ?_⟩
      rcases h1 with h1 | ⟨hrn1, h1⟩
      · rcases h2 with h2 | ⟨hrn2, _⟩
        · exact Or.inl (goLt_trans h1 h2)
        · exact Or.inl (hrn2 ▸ h1)
      · rcases h2 with h2 | ⟨hrn2, h2⟩
        · exact Or.inl (hrn1 ▸ h2)
        · refine Or.inr ⟨hrn1.trans hrn2, ?_⟩
          by_cases h5 : goLt c.ResourceType a.ResourceType = true
          · exfalso
            by_cases h6 : goLt b.ResourceType c.ResourceType = true
            · have hba := goLt_trans h6 h5
              rw [hba] at h1
              simp at h1
            · have h6' : goLt b.ResourceType c.ResourceType = false := by simpa using h6
              have hbc := goLt_conn h6' h2
              rw [← hbc] at h5
              rw [h5] at h1
              simp at h1
          · simpa using h5

theorem keyLE_antisymm {a b : Row} (h1 : keyLE a b) (h2 : keyLE b a) :
    sortKey a = sortKey b := by
  unfold keyLE at h1 h2
  unfold sortKey
  rcases h1 with h1 | ⟨hns1, h1⟩
  · rcases h2 with h2 | ⟨hns2, _⟩
    · rw [goLt_asymm h2] at h1; simp at h1
    · rw [hns2, goLt_irrefl] at h1; simp at h1
  · rcases h2 with h2 | ⟨_, h2⟩
    · rw [hns1, goLt_irrefl] at h2; simp at h2
    · rcases h1 with h1 | ⟨hrn1, h1⟩
      · rcases h2 with h2 | ⟨hrn2, _⟩
        · rw [goLt_asymm h2] at h1; simp at h1
        · rw [hrn2, goLt_irrefl] at h1; simp at h1
      · rcases h2 with h2 | ⟨_, h2⟩
        · rw [hrn1, goLt_irrefl] at h2; simp at h2
        · have hrt := goLt_conn h2 h1
          simp [hns1, hrn1, hrt]

instance : IsTotal Row rowLE :=
  ⟨fun a b => by
    rw [rowLE_iff_keyLE, rowLE_iff_keyLE]
    exact keyLE_total a b⟩

instance : IsTrans Row rowLE :=
  ⟨fun a b c h1 h2 => by
    rw [rowLE_iff_keyLE] at h1 h2 ⊢
    exact keyLE_trans h1 h2⟩

/-! ### Sortedness, permutation and uniqueness of the row sequence -/

theorem rows_pairwise_rowLE (meta : List (String × MetaInfo)) :
    (rows meta).Pairwise rowLE :=
  List.sorted_insertionSort rowLE (meta.map toRow)

theorem rows_pairwise_keyLE (meta : List (String × MetaInfo)) :
    (rows meta).Pairwise keyLE :=
  (rows_pairwise_rowLE meta).imp fun h => (rowLE_iff_keyLE _ _).mp h

theorem rows_perm_map (meta : List (String × MetaInfo)) :
    (rows meta).Perm (meta.map toRow) :=
  List.perm_insertionSort rowLE (meta.map toRow)

/-- Two sorted lists that are permutations of each other and whose relation is
antisymmetric on their members are equal. -/
theorem sorted_perm_unique {α : Type} (le : α → α → Prop) :
    ∀ (l₁ l₂ : List α), l₁.Pairwise le → l₂.Pairwise le → l₁.Perm l₂ →
      (∀ a ∈ l₁, ∀ b ∈ l₁, le a b → le b a → a = b) → l₁ = l₂ := by
  intro l₁
  induction l₁ with
  | nil => intro l₂ _ _ hp _; exact (hp.nil_eq).symm ▸ rfl
  | cons a t₁ ih =>
    intro l₂ hs₁ hs₂ hp hanti
    cases l₂ with
    | nil => exact absurd hp.length_eq (by simp)
    | cons b t₂ =>
      by_cases hab : a = b
      · subst hab
        have ht : t₁.Perm t₂ := hp.cons_inv
        have := ih t₂ hs₁.of_cons hs₂.of_cons ht fun x hx y hy =>
          hanti x (List.mem_cons_of_mem a hx) y (List.mem_cons_of_mem a hy)
        rw [this]
      · exfalso
        have ha2 : a ∈ b :: t₂ := hp.mem_iff.mp (List.mem_cons_self a t₁)
        have hb1 : b ∈ a :: t₁ := hp.mem_iff.mpr (List.mem_cons_self b t₂)
        have hat2 : a ∈ t₂ := by
          rcases List.mem_cons.mp ha2 with h | h
          · exact absurd h hab
          · exact h
        have hbt1 : b ∈ t₁ := by
          rcases List.mem_cons.mp hb1 with h | h
          · exact absurd h.symm hab
          · exact h
        have hba : le b a := (List.pairwise_cons.mp hs₂).1 a hat2
        have hab' : le a b := (List.pairwise_cons.mp hs₁).1 b hbt1
        exact hab (hanti a (List.mem_cons_self a t₁) b hb1 hab' hba)

/-- In a list whose elements have pairwise-distinct images under `f`, equal
images force equal elements. -/
theorem eq_of_pairwise_ne_map {α β : Type} (f : α → β) :
    ∀ (l : List α), l.Pairwise (fun x y => f x ≠ f y) →
      ∀ a ∈ l, ∀ b ∈ l, f a = f b → a = b := by
  intro l
  induction l with
  | nil => intro _ a ha; exact absurd ha (List.not_mem_nil a)
  | cons x t ih =>
    intro hpw a ha b hb hf
    rcases List.pairwise_cons.mp hpw with ⟨hx, ht⟩
    rcases List.mem_cons.mp ha with rfl | hat
    · rcases List.mem_cons.mp hb with rfl | hbt
      · rfl
      · exact absurd hf (hx b hbt)
    · rcases List.mem_cons.mp hb with rfl | hbt
      · exact absurd hf.symm (hx a hat)
      · exact ih ht a hat b hbt hf

/-- On identical input mappings whose rows carry pairwise-distinct sort keys,
`rows` yields the same sequence regardless of the map iteration order. -/
theorem rows_deterministic {meta meta' : List (String × MetaInfo)}
    (hperm : meta.Perm meta')
    (hkeys : (meta.map toRow).Pairwise fun a b => sortKey a ≠ sortKey b) :
    rows meta = rows meta' := by
  have hmapperm : (meta.map toRow).Perm (meta'.map toRow) := hperm.map toRow
  have hrowsperm : (rows meta).Perm (rows meta') :=
    (rows_perm_map meta).trans (hmapperm.trans (rows_perm_map meta').symm)
  refine sorted_perm_unique rowLE (rows meta) (rows meta')
    (rows_pairwise_rowLE meta) (rows_pairwise_rowLE meta') hrowsperm ?_
  intro a ha b hb hab hba
  have hka : sortKey a = sortKey b :=
    keyLE_antisymm ((rowLE_iff_keyLE a b).mp hab) ((rowLE_iff_keyLE b a).mp hba)
  exact eq_of_pairwise_ne_map sortKey (meta.map toRow) hkeys
    a ((rows_perm_map meta).mem_iff.mp ha)
    b ((rows_perm_map meta).mem_iff.mp hb) hka

/-! ### Behaviour of `SplitN` and `sourceParts` -/

theorem splitOnFirst_of_not_mem {c : Char} : ∀ {l : List Char}, c ∉ l →
    splitOnFirst c l = none := by
  intro l
  induction l with
  | nil => intro _; rfl
  | cons x xs ih =>
    intro h
    have hx : ¬ x = c := fun he => h (he ▸ List.mem_cons_self x xs)
    have hxs : c ∉ xs := fun hm => h (List.mem_cons_of_mem x hm)
    simp [splitOnFirst, hx, ih hxs]

theorem splitOnFirst_append {c : Char} : ∀ {l : List Char} (r : List Char), c ∉ l →
    splitOnFirst c (l ++ c :: r) = some (l, r) := by
  intro l
  induction l with
  | nil => intro r _; simp [splitOnFirst]
  | cons x xs ih =>
    intro r h
    have hx : ¬ x = c := fun he => h (he ▸ List.mem_cons_self x xs)
    have hxs : c ∉ xs := fun hm => h (List.mem_cons_of_mem x hm)
    simp [splitOnFirst, hx, ih r hxs]

theorem goSplitN_no_slash {c : Char} {l : List Char} (h : c ∉ l) :
    goSplitN c l 3 = [l] := by
  simp [goSplitN, splitOnFirst_of_not_mem h]

theorem goSplitN_one_slash {c : Char} {l r : List Char} (hl : c ∉ l) (hr : c ∉ r) :
    goSplitN c (l ++ c :: r) 3 = [l, r] := by
  simp [goSplitN, splitOnFirst_append r hl, splitOnFirst_of_not_mem hr]

theorem goSplitN_two_slashes {c : Char} {l₁ l₂ l₃ : List Char}
    (h1 : c ∉ l₁) (h2 : c ∉ l₂) :
    goSplitN c (l₁ ++ c :: (l₂ ++ c :: l₃)) 3 = [l₁, l₂, l₃] := by
  simp [goSplitN, splitOnFirst_append _ h1, splitOnFirst_append _ h2]

/-- The key built from a namespace, a resource type and a remainder. -/
theorem data_key (ns ty rest : String) :
    (ns ++ "/" ++ ty ++ "/" ++ rest).data =
      ns.data ++ '/' :: (ty.data ++ '/' :: rest.data) := by
  simp [String.data_append]

theorem sourceParts_decompose (ns ty rest : String)
    (h1 : '/' ∉ ns.data) (h2 : '/' ∉ ty.data) :
    sourceParts (ns ++ "/" ++ ty ++ "/" ++ rest) = (rest, ty, ns) := by
  unfold sourceParts
  rw [data_key, goSplitN_two_slashes h1 h2]
  rfl

/-- Any character list with at least one occurrence of `c` splits at the first
occurrence. -/
theorem exists_first_occ {c : Char} : ∀ {l : List Char}, c ∈ l →
    ∃ l₁ l₂, c ∉ l₁ ∧ l = l₁ ++ c :: l₂ ∧ l.count c = l₂.count c + 1 := by
  intro l
  induction l with
  | nil => intro h; exact absurd h (List.not_mem_nil c)
  | cons x xs ih =>
    intro h
    by_cases hx : x = c
    · subst hx
      exact ⟨[], xs, List.not_mem_nil x, rfl, by simp⟩
    · have hm : c ∈ xs := by
        rcases List.mem_cons.mp h with h' | h'
        · exact absurd h'.symm hx
        · exact h'
      rcases ih hm with ⟨l₁, l₂, hn, he, hc⟩
      refine ⟨x :: l₁, l₂, ?_, by rw [he, List.cons_append], ?_⟩
      · intro hcm
        rcases List.mem_cons.mp hcm with h' | h'
        · exact hx h'.symm
        · exact hn h'
      · simpa [List.count_cons, hx] using hc

theorem count_eq_zero_iff_not_mem {c : Char} {l : List Char} :
    l.count c = 0 ↔ c ∉ l := List.count_eq_zero

/-- `sourceParts` on a key with at most one `/`: the placeholder branch. -/
theorem sourceParts_few_slashes (s : String) (h : s.data.count '/' ≤ 1) :
    sourceParts s = (s, "-", "-") := by
  unfold sourceParts
  by_cases h0 : '/' ∈ s.data
  · rcases exists_first_occ h0 with ⟨l₁, l₂, hn, he, hc⟩
    have hl₂ : l₂.count '/' = 0 := by omega
    have hnl₂ : '/' ∉ l₂ := count_eq_zero_iff_not_mem.mp hl₂
    rw [he, goSplitN_one_slash hn hnl₂]
    rfl
  · rw [goSplitN_no_slash h0]
    rfl

/-! ### Truncation of durations -/

theorem truncateSecond_eq_tdiv (d : Int) :
    truncateSecond d = Int.tdiv d second * second := by
  have h := Int.tdiv_add_tmod d 1000000000
  unfold truncateSecond second
  omega

/-! ### Rendered durations -/

/-- The duration fields of the row lines of a rendered table, in order. -/
def renderedDurations (noHeaders : Bool) (rs : List Row) : List Int :=
  (renderLines noHeaders rs).filterMap fun l =>
    match l with
    | .header => none
    | .rowLine _ _ _ _ _ d => some d

theorem filterMap_row_durations : ∀ rs : List Row,
    (List.filterMap
      (fun l =>
        match l with
        | OutLine.header => none
        | OutLine.rowLine _ _ _ _ _ d => some d)
      (rs.map fun r =>
        OutLine.rowLine r.ResourceName r.ResourceType r.Namespace
          r.Count r.Expired (maxDuration second r.Duration))) =
      rs.map fun r => maxDuration second r.Duration := by
  intro rs
  induction rs with
  | nil => rfl
  | cons r t ih => simp only [List.map_cons, List.filterMap_cons, ih]

theorem renderedDurations_eq (noHeaders : Bool) (rs : List Row) :
    renderedDurations noHeaders rs =
      rs.map fun r => maxDuration second r.Duration := by
  unfold renderedDurations renderLines
  cases noHeaders
  · simpa [List.filterMap_cons] using filterMap_row_durations rs
  · simpa using filterMap_row_durations rs

/-! ## Claim theorems -/

/-- C1: for every well-formed source key `"ns/type/name"` (three segments
separated by exactly two `/` characters), `sourceParts` returns the segments
in reverse significance: `(name, type, ns)`. -/
theorem sourceParts_well_formed (ns ty name : String)
    (h1 : '/' ∉ ns.data) (h2 : '/' ∉ ty.data) (_h3 : '/' ∉ name.data) :
    sourceParts (ns ++ "/" ++ ty ++ "/" ++ name) = (name, ty, ns) :=
  sourceParts_decompose ns ty name h1 h2

theorem sourceParts_well_formed_witness :
    sourceParts ("ns1" ++ "/" ++ "gauge" ++ "/" ++ "cpu") = ("cpu", "gauge", "ns1") :=
  sourceParts_well_formed "ns1" "gauge" "cpu" (by decide) (by decide) (by decide)

/-- C2 counterexample: the claim also asserts the placeholder result for keys
with two or with more than two `/` separators, but `"a/b/c"` (two separators)
parses to `("c", "b", "a")` and `"a/b/c/d"` (three separators) parses to
`("c/d", "b", "a")`, not to the placeholder triple. -/
theorem sourceParts_placeholder_counterexample :
    sourceParts "a/b/c" ≠ ("a/b/c", "-", "-") ∧
    sourceParts "a/b/c/d" ≠ ("a/b/c/d", "-", "-") ∧
    sourceParts "a/b/c" = ("c", "b", "a") ∧
    sourceParts "a/b/c/d" = ("c/d", "b", "a") := by decide

/-- C2 (amended): for every source key containing zero or one `/` characters,
`sourceParts` returns `(originalKey, "-", "-")`. -/
theorem sourceParts_placeholder (s : String) (h : s.data.count '/' ≤ 1) :
    sourceParts s = (s, "-", "-") :=
  sourceParts_few_slashes s h

theorem sourceParts_placeholder_witness :
    sourceParts "malformed-key" = ("malformed-key", "-", "-") :=
  sourceParts_placeholder "malformed-key" (by decide)

/-- C10: every source key with two or more `/` characters is split into at
most three parts: namespace before the first `/`, resource type between the
first and second `/`, and the entire remainder after the second `/` (further
`/` included) as the resource name; such keys never hit the placeholder
branch. -/
theorem sourceParts_many_slashes (s : String) (h : 2 ≤ s.data.count '/') :
    ∃ ns ty rest : String, '/' ∉ ns.data ∧ '/' ∉ ty.data ∧
      s = ns ++ "/" ++ ty ++ "/" ++ rest ∧
      sourceParts s = (rest, ty, ns) ∧
      sourceParts s ≠ (s, "-", "-") := by
  have h0 : '/' ∈ s.data := by
    by_contra h0
    rw [← count_eq_zero_iff_not_mem] at h0
    omega
  rcases exists_first_occ h0 with ⟨l₁, l₂, hn1, he1, hc1⟩
  have h2 : '/' ∈ l₂ := by
    by_contra h2
    rw [← count_eq_zero_iff_not_mem] at h2
    omega
  rcases exists_first_occ h2 with ⟨l₃, l₄, hn3, he3, _⟩
  refine ⟨String.mk l₁, String.mk l₃, String.mk l₄, hn1, hn3, ?_, ?_, ?_⟩
  · apply string_eq_of_data_eq
    rw [data_key, he1, he3]
  · have hs : s = String.mk l₁ ++ "/" ++ String.mk l₃ ++ "/" ++ String.mk l₄ := by
      apply string_eq_of_data_eq
      rw [data_key, he1, he3]
    rw [hs]
    exact sourceParts_decompose _ _ _ hn1 hn3
  · have hs : s = String.mk l₁ ++ "/" ++ String.mk l₃ ++ "/" ++ String.mk l₄ := by
      apply string_eq_of_data_eq
      rw [data_key, he1, he3]
    rw [hs, sourceParts_decompose _ _ _ hn1 hn3]
    intro hcontra
    have hfst : String.mk l₄ =
        String.mk l₁ ++ "/" ++ String.mk l₃ ++ "/" ++ String.mk l₄ :=
      congrArg Prod.fst hcontra
    have hlen := congrArg (fun t : String => t.data.length) hfst
    simp only [data_key] at hlen
    simp only [List.length_append, List.length_cons] at hlen
    omega

theorem sourceParts_many_slashes_witness :
    ∃ ns ty rest : String, '/' ∉ ns.data ∧ '/' ∉ ty.data ∧
      "a/b/c/d" = ns ++ "/" ++ ty ++ "/" ++ rest ∧
      sourceParts "a/b/c/d" = (rest, ty, ns) ∧
      sourceParts "a/b/c/d" ≠ ("a/b/c/d", "-", "-") :=
  sourceParts_many_slashes "a/b/c/d" (by decide)

/-- C3 counterexample: on the same two-entry mapping — the keys are `"x"` and
the five-character key `"-" ++ "/" ++ "-" ++ "/" ++ "x"`, which map to rows
with identical sort keys but different counts — two iteration orders of the
map produce different row sequences, so `rows` is not deterministic
regardless of map iteration order. -/
theorem rows_order_dependent_counterexample :
    [("x", (⟨1, 0, 0, 0⟩ : MetaInfo)), ("-/-/x", (⟨2, 0, 0, 0⟩ : MetaInfo))].Perm
      [("-/-/x", (⟨2, 0, 0, 0⟩ : MetaInfo)), ("x", (⟨1, 0, 0, 0⟩ : MetaInfo))] ∧
    rows [("x", (⟨1, 0, 0, 0⟩ : MetaInfo)), ("-/-/x", (⟨2, 0, 0, 0⟩ : MetaInfo))] ≠
      rows [("-/-/x", (⟨2, 0, 0, 0⟩ : MetaInfo)), ("x", (⟨1, 0, 0, 0⟩ : MetaInfo))] := by
  decide

/-- C3 (amended): the row sequence produced by `rows` is always non-decreasing
under the lexicographic key `(namespace, resourceName, resourceType)`, each
later field breaking ties of the earlier ones; and whenever the entries of the
mapping yield pairwise-distinct sort keys, the produced sequence is the same
for every iteration order of the mapping. -/
theorem rows_sorted_and_deterministic (meta meta' : List (String × MetaInfo)) :
    (rows meta).Pairwise keyLE ∧
    (meta.Perm meta' →
      ((meta.map toRow).map sortKey).Nodup →
      rows meta = rows meta') := by
  refine ⟨rows_pairwise_keyLE meta, fun hp hk => ?_⟩
  exact rows_deterministic hp (List.pairwise_map.mp hk)

theorem rows_sorted_and_deterministic_witness :
    (rows [("ns1/gauge/cpu", (⟨10, 2, 0, 5000000000⟩ : MetaInfo)),
        ("ns1/counter/cpu", (⟨3, 1, 0, 0⟩ : MetaInfo))]).Pairwise keyLE ∧
    rows [("ns1/gauge/cpu", (⟨10, 2, 0, 5000000000⟩ : MetaInfo)),
        ("ns1/counter/cpu", (⟨3, 1, 0, 0⟩ : MetaInfo))] =
      rows [("ns1/counter/cpu", (⟨3, 1, 0, 0⟩ : MetaInfo)),
        ("ns1/gauge/cpu", (⟨10, 2, 0, 5000000000⟩ : MetaInfo))] :=
  ⟨(rows_sorted_and_deterministic
      [("ns1/gauge/cpu", (⟨10, 2, 0, 5000000000⟩ : MetaInfo)),
        ("ns1/counter/cpu", (⟨3, 1, 0, 0⟩ : MetaInfo))]
      [("ns1/counter/cpu", (⟨3, 1, 0, 0⟩ : MetaInfo)),
        ("ns1/gauge/cpu", (⟨10, 2, 0, 5000000000⟩ : MetaInfo))]).1,
   (rows_sorted_and_deterministic
      [("ns1/gauge/cpu", (⟨10, 2, 0, 5000000000⟩ : MetaInfo)),
        ("ns1/counter/cpu", (⟨3, 1, 0, 0⟩ : MetaInfo))]
      [("ns1/counter/cpu", (⟨3, 1, 0, 0⟩ : MetaInfo)),
        ("ns1/gauge/cpu", (⟨10, 2, 0, 5000000000⟩ : MetaInfo))]).2
      (by decide) (by decide)⟩

/-- C4 counterexample: when the difference of the two `int64` timestamps does
not fit in the `int64` range of `time.Duration`, `Sub` saturates, so the
stored duration is not the truncation of the mathematical difference. -/
theorem cacheDuration_saturation_counterexample :
    cacheDuration ⟨0, 0, minInt64, maxInt64⟩ ≠
      Int.tdiv (maxInt64 - minInt64) second * second ∧
    cacheDuration ⟨0, 0, minInt64, maxInt64⟩ = 9223372036000000000 ∧
    Int.tdiv (maxInt64 - minInt64) second * second = 18446744073000000000 := by
  decide

/-- C4 (amended): the stored row duration is `newest − oldest` truncated
toward zero to whole seconds whenever that difference is representable as a
64-bit nanosecond duration; an out-of-range difference first saturates to the
maximum (resp. minimum) 64-bit duration and is then truncated. -/
theorem cacheDuration_truncates (m : MetaInfo) :
    (minInt64 ≤ m.NewestTimestamp - m.OldestTimestamp →
      m.NewestTimestamp - m.OldestTimestamp ≤ maxInt64 →
      cacheDuration m =
        Int.tdiv (m.NewestTimestamp - m.OldestTimestamp) second * second) ∧
    (maxInt64 < m.NewestTimestamp - m.OldestTimestamp →
      cacheDuration m = Int.tdiv maxInt64 second * second) ∧
    (m.NewestTimestamp - m.OldestTimestamp < minInt64 →
      cacheDuration m = Int.tdiv minInt64 second * second) := by
  unfold cacheDuration timeSub
  have hmm : minInt64 < maxInt64 := by decide
  refine ⟨fun hlo hhi => ?_, fun hhi => ?_, fun hlo => ?_⟩
  · rw [if_neg (by omega), if_neg (by omega), truncateSecond_eq_tdiv]
  · rw [if_pos (by omega), truncateSecond_eq_tdiv]
  · rw [if_neg (by omega), if_pos (by omega), truncateSecond_eq_tdiv]

theorem cacheDuration_truncates_witness :
    cacheDuration ⟨10, 2, 0, 5500000000⟩ =
      Int.tdiv ((⟨10, 2, 0, 5500000000⟩ : MetaInfo).NewestTimestamp -
        (⟨10, 2, 0, 5500000000⟩ : MetaInfo).OldestTimestamp) second * second :=
  (cacheDuration_truncates ⟨10, 2, 0, 5500000000⟩).1 (by decide) (by decide)

/-- C5: the duration rendered for each row is `max(1s, storedDuration)`: a
stored duration `≤ 0` renders as exactly one second and a stored duration
`> 1s` renders unchanged; the clamp lives in the rendered line only, while
the stored duration of a produced row stays the raw `cacheDuration` value. -/
theorem rendered_duration_floor (noHeaders : Bool) (rs : List Row) :
    renderedDurations noHeaders rs =
      (rs.map fun r => maxDuration second r.Duration) ∧
    (∀ d : Int, d ≤ 0 → maxDuration second d = second) ∧
    (∀ d : Int, second < d → maxDuration second d = d) ∧
    (∀ kv : String × MetaInfo, (toRow kv).Duration = cacheDuration kv.2) := by
  refine ⟨renderedDurations_eq noHeaders rs, fun d hd => ?_, fun d hd => ?_,
    fun _ => rfl⟩
  · unfold maxDuration second at *
    rw [if_neg (by omega)]
  · unfold maxDuration second at *
    rw [if_pos (by omega)]

theorem rendered_duration_floor_witness :
    renderedDurations false [(⟨10, 2, -3000000000, "cpu", "gauge", "ns1"⟩ : Row)] =
      ([(⟨10, 2, -3000000000, "cpu", "gauge", "ns1"⟩ : Row)].map fun r =>
        maxDuration second r.Duration) ∧
    maxDuration second (-3000000000) = second ∧
    maxDuration second 5000000000 = 5000000000 :=
  ⟨(rendered_duration_floor false
      [(⟨10, 2, -3000000000, "cpu", "gauge", "ns1"⟩ : Row)]).1,
   (rendered_duration_floor false
      [(⟨10, 2, -3000000000, "cpu", "gauge", "ns1"⟩ : Row)]).2.1
      (-3000000000) (by decide),
   (rendered_duration_floor false
      [(⟨10, 2, -3000000000, "cpu", "gauge", "ns1"⟩ : Row)]).2.2.1
      5000000000 (by decide)⟩

/-- C6: `rows` produces exactly one row per entry of the input mapping. -/
theorem rows_cardinality (meta : List (String × MetaInfo)) :
    (rows meta).length = meta.length := by
  rw [(rows_perm_map meta).length_eq, List.length_map]

/-- C7: on an empty mapping or an `io.EOF` result from the metadata call,
`runE` writes no output lines at all and returns success. -/
theorem runE_no_data (noHeaders : Bool) (flushError : Option String)
    (metaResult : Except GoError (List (String × MetaInfo)))
    (h : metaResult = .ok [] ∨ metaResult = .error .eof) :
    runE noHeaders flushError metaResult = .ok [] := by
  rcases h with rfl | rfl
  · simp [runE]
  · simp [runE]

theorem runE_no_data_witness :
    runE false (some "disk full") (.ok []) = .ok [] ∧
    runE false none (.error .eof) = .ok [] :=
  ⟨runE_no_data false (some "disk full") (.ok []) (Or.inl rfl),
   runE_no_data false none (.error .eof) (Or.inr rfl)⟩

/-- C8: any metadata-call error other than `io.EOF` is returned unchanged,
with its message preserved, and no output is produced. -/
theorem runE_propagates_transport_error (noHeaders : Bool)
    (flushError : Option String) (msg : String) :
    runE noHeaders flushError (.error (.other msg)) = .error (.other msg) := by
  simp [runE]

/-- C9: a failing write/flush makes `runE` fail with the fixed message
`"Error writing results"`, independent of the underlying cause; when the
flush succeeds, `runE` on a successful metadata result never returns an
error. -/
theorem runE_render_error (noHeaders : Bool) (meta : List (String × MetaInfo))
    (cause : String) :
    (meta ≠ [] →
      runE noHeaders (some cause) (.ok meta) =
        .error (.other "Error writing results")) ∧
    runE noHeaders none (.ok meta) =
      .ok (if meta.length = 0 then [] else renderLines noHeaders (rows meta)) := by
  constructor
  · intro h
    have hlen : ¬ meta.length = 0 := by simpa using h
    simp [runE, hlen]
  · simp only [runE]
    split_ifs <;> rfl

theorem runE_render_error_witness :
    runE false (some "stream closed")
        (.ok [("ns1/gauge/cpu", (⟨10, 2, 0, 5000000000⟩ : MetaInfo))]) =
      .error (.other "Error writing results") ∧
    runE false none (.ok [("ns1/gauge/cpu", (⟨10, 2, 0, 5000000000⟩ : MetaInfo))]) =
      .ok (if ([("ns1/gauge/cpu", (⟨10, 2, 0, 5000000000⟩ : MetaInfo))] :
            List (String × MetaInfo)).length = 0 then []
          else renderLines false
            (rows [("ns1/gauge/cpu", (⟨10, 2, 0, 5000000000⟩ : MetaInfo))])) :=
  ⟨(runE_render_error false
      [("ns1/gauge/cpu", (⟨10, 2, 0, 5000000000⟩ : MetaInfo))] "stream closed").1
      (by decide),
   (runE_render_error false
      [("ns1/gauge/cpu", (⟨10, 2, 0, 5000000000⟩ : MetaInfo))] "stream closed").2⟩

end LogCacheMeta
